import Mathlib

/-!
Verification of the Minesweeper knowledge-based inference engine
(`src/minesweeper/minesweeper.py`).

The engine state (`MinesweeperAI`) and the constraint type (`Sentence`)
are embedded shallowly: Python sets of cells become duplicate-free
`List Cell` values (membership, insertion and removal are extensional,
so the particular order is immaterial), Python ints become `Int`, and
every mutating method becomes a function returning the updated value.
The iteration order chosen for set traversals is the row-major order in
which the Python code generates the corresponding elements.
-/

/-- A board cell, the `(row, column)` pair of Python ints. -/
abbrev Cell := Int × Int

/-- Python `set.add`: insert a cell if it is not already present. -/
def addCell (l : List Cell) (c : Cell) : List Cell :=
  if c ∈ l then l else l ++ [c]

/-- Python `set.remove` on a duplicate-free list: drop the cell. -/
def removeCell (l : List Cell) (c : Cell) : List Cell :=
  l.filter (fun x => decide (x ≠ c))

/-- Python `set.issubset`. -/
def subB (a b : List Cell) : Bool :=
  a.all (fun c => decide (c ∈ b))

/-- Python `set.difference`: the cells of `a` that are not in `b`. -/
def listDiff (a b : List Cell) : List Cell :=
  a.filter (fun c => decide (c ∉ b))

/-- Class `Sentence(cells, count)`: a set of board cells together with the
number of those cells that are mines. -/
structure Sentence where
  cells : List Cell
  count : Int
deriving DecidableEq, Repr

instance : Inhabited Sentence := ⟨⟨[], 0⟩⟩

/-- Method `Sentence.__eq__`: structural equality — equal cell sets
(extensionally, as Python compares sets) and equal counts. -/
def sentBeq (x y : Sentence) : Bool :=
  subB x.cells y.cells && subB y.cells x.cells && decide (x.count = y.count)

/-- Python `sentence in knowledge` (membership by `Sentence.__eq__`). -/
def memKB (x : Sentence) (kb : List Sentence) : Bool :=
  kb.any (sentBeq x)

/-- Method `Sentence.known_mines`: all cells if `len(cells) == count`, else `None`. -/
def Sentence.known_mines (s : Sentence) : Option (List Cell) :=
  if (s.cells.length : Int) = s.count then some s.cells else none

/-- Method `Sentence.known_safes`: all cells if `count == 0`, else `None`. -/
def Sentence.known_safes (s : Sentence) : Option (List Cell) :=
  if s.count = 0 then some s.cells else none

/-- Method `Sentence.mark_mine`: if the cell is present, remove it and
decrement the count. -/
def Sentence.mark_mine (s : Sentence) (c : Cell) : Sentence :=
  if c ∈ s.cells then { cells := removeCell s.cells c, count := s.count - 1 } else s

/-- Method `Sentence.mark_safe`: if the cell is present, remove it
(count unchanged). -/
def Sentence.mark_safe (s : Sentence) (c : Cell) : Sentence :=
  if c ∈ s.cells then { cells := removeCell s.cells c, count := s.count } else s

/-- The `MinesweeperAI` state: board dimensions, the cells already
clicked, the cells known to be mines or safe, and the list of sentences. -/
structure MinesweeperAI where
  height : Int
  width : Int
  moves_made : List Cell
  mines : List Cell
  safes : List Cell
  knowledge : List Sentence
deriving DecidableEq, Repr

/-- Constructor `MinesweeperAI.__init__`. -/
def MinesweeperAI.init (height width : Int) : MinesweeperAI :=
  { height := height, width := width,
    moves_made := [], mines := [], safes := [], knowledge := [] }

/-- Method `MinesweeperAI.mark_mine`: add the cell to `mines` and mark it in
every sentence of the knowledge base. -/
def MinesweeperAI.mark_mine (st : MinesweeperAI) (c : Cell) : MinesweeperAI :=
  { st with mines := addCell st.mines c,
            knowledge := st.knowledge.map (fun s => s.mark_mine c) }

/-- Method `MinesweeperAI.mark_safe`: add the cell to `safes` and mark it in
every sentence of the knowledge base. -/
def MinesweeperAI.mark_safe (st : MinesweeperAI) (c : Cell) : MinesweeperAI :=
  { st with safes := addCell st.safes c,
            knowledge := st.knowledge.map (fun s => s.mark_safe c) }

/-- The 3x3 box around a cell minus the cell itself, in the row-major
order of the Python `for i ... for j ...` loops. -/
def neighborhood (cell : Cell) : List Cell :=
  [(cell.1 - 1, cell.2 - 1), (cell.1 - 1, cell.2), (cell.1 - 1, cell.2 + 1),
   (cell.1, cell.2 - 1), (cell.1, cell.2 + 1),
   (cell.1 + 1, cell.2 - 1), (cell.1 + 1, cell.2), (cell.1 + 1, cell.2 + 1)]

/-- The `neighbors` set of `add_knowledge`: in-bounds neighbours whose
state is still undetermined. -/
def computeNeighbors (st : MinesweeperAI) (cell : Cell) : List Cell :=
  (neighborhood cell).filter (fun p =>
    decide (0 ≤ p.1 ∧ p.1 < st.height ∧ 0 ≤ p.2 ∧ p.2 < st.width
      ∧ p ∉ st.mines ∧ p ∉ st.safes))

/-- The `if len(neighbors) == count` loop body of `add_knowledge`:
mark every neighbour as a mine, decrementing the local `count` once per
neighbour. -/
def mineSweep (p : MinesweeperAI × Int) (neighbors : List Cell) : MinesweeperAI × Int :=
  neighbors.foldl (fun q n => (q.1.mark_mine n, q.2 - 1)) p

/-- One iteration of step 4 of `add_knowledge`, for one snapshot
sentence `s`: if `s` is mine-degenerate (`len(cells) == count != 0`)
mark all its cells as mines; then, if its count is `0`, mark all its
cells as safe. -/
def extractStep (cur : MinesweeperAI) (s : Sentence) : MinesweeperAI :=
  if s.count = 0 then
    s.cells.foldl MinesweeperAI.mark_safe
      (if (s.cells.length : Int) = s.count ∧ s.count ≠ 0
       then s.cells.foldl MinesweeperAI.mark_mine cur else cur)
  else
    (if (s.cells.length : Int) = s.count ∧ s.count ≠ 0
     then s.cells.foldl MinesweeperAI.mark_mine cur else cur)

/-- Step 4 of `add_knowledge`: iterate `extractStep` over a snapshot
`kb` of the knowledge base (the Python `copy.deepcopy`). -/
def factExtract (st : MinesweeperAI) (kb : List Sentence) : MinesweeperAI :=
  kb.foldl extractStep st

/-- One `(i, j)` iteration of `infer_new_sentence`: if one of the two
sentences' cell sets is a subset of the other, form the difference
sentence and append it when it is new and nonempty. -/
def inferStep (kb : List Sentence) (i j : Nat) : List Sentence :=
  let si := kb.getD i default
  let sj := kb.getD j default
  if subB si.cells sj.cells then
    let ns : Sentence := ⟨listDiff sj.cells si.cells, sj.count - si.count⟩
    if memKB ns kb = false ∧ ns.cells.length ≠ 0 then kb ++ [ns] else kb
  else if subB sj.cells si.cells then
    let ns : Sentence := ⟨listDiff si.cells sj.cells, si.count - sj.count⟩
    if memKB ns kb = false ∧ ns.cells.length ≠ 0 then kb ++ [ns] else kb
  else kb

/-- The inner `for j in range(i+1, len(self.knowledge))` loop; the range
is fixed when the inner loop starts, as in Python. -/
def innerLoop (kb : List Sentence) (i : Nat) : List Sentence :=
  (List.range' (i + 1) (kb.length - (i + 1))).foldl (fun acc j => inferStep acc i j) kb

/-- Method `MinesweeperAI.infer_new_sentence`: the pairwise subset-inference
pass; the outer range is fixed at entry, as in Python. -/
def MinesweeperAI.infer_new_sentence (st : MinesweeperAI) : MinesweeperAI :=
  { st with knowledge :=
      (List.range st.knowledge.length).foldl (fun acc i => innerLoop acc i) st.knowledge }

/-- The two count branches of `add_knowledge`: if
`len(neighbors) == count`, mark every neighbour as a mine (decrementing
the local `count` each time); the resulting state and residual count. -/
def branchPair (st2 : MinesweeperAI) (neighbors : List Cell) (count : Int) :
    MinesweeperAI × Int :=
  if (neighbors.length : Int) = count then mineSweep (st2, count) neighbors
  else (st2, count)

/-- The `if count == 0` branch of `add_knowledge`: mark every neighbour
as safe when the residual count is zero. -/
def safeSweep (p : MinesweeperAI × Int) (neighbors : List Cell) : MinesweeperAI :=
  if p.2 = 0 then neighbors.foldl MinesweeperAI.mark_safe p.1 else p.1

/-- Step 3's append: add the new sentence when its cell set is nonempty
and no structurally equal sentence is already stored. -/
def appendNew (st4 : MinesweeperAI) (newS : Sentence) : MinesweeperAI :=
  if newS.cells.length ≠ 0 ∧ memKB newS st4.knowledge = false
  then { st4 with knowledge := st4.knowledge ++ [newS] } else st4

/-- Steps 4 and 5 of `add_knowledge`: fact extraction over a snapshot of
the current knowledge, then the pairwise inference pass. -/
def obsClose (st5 : MinesweeperAI) : MinesweeperAI :=
  (factExtract st5 st5.knowledge).infer_new_sentence

/-- Steps 3-5 of `add_knowledge`, once the observed cell has been
recorded and marked safe: build the `neighbors` set, run the two count
branches, append the new sentence, then extract facts and infer. -/
def obsFinish (st2 : MinesweeperAI) (neighbors : List Cell) (count : Int) :
    MinesweeperAI :=
  obsClose (appendNew (safeSweep (branchPair st2 neighbors count) neighbors)
    ⟨neighbors, (branchPair st2 neighbors count).2⟩)

/-- Method `MinesweeperAI.add_knowledge`: record one observation `(cell, count)`:
add the cell to `moves_made`, mark it safe, then run steps 3-5. -/
def MinesweeperAI.add_knowledge (st : MinesweeperAI) (cell : Cell) (count : Int) :
    MinesweeperAI :=
  obsFinish (({ st with moves_made := addCell st.moves_made cell }).mark_safe cell)
    (computeNeighbors (({ st with moves_made := addCell st.moves_made cell }).mark_safe cell)
      cell)
    count

/-- Method `MinesweeperAI.make_safe_move`: some known-safe cell not yet played
and not known to be a mine, if any. -/
def MinesweeperAI.make_safe_move (st : MinesweeperAI) : Option Cell :=
  if st.safes.length ≠ 0 then
    st.safes.find? (fun c => decide (c ∉ st.moves_made ∧ c ∉ st.mines))
  else none

/-- Method `Minesweeper.nearby_mines`: the number of mines of the board within
one row and column of a cell, the cell itself excluded. -/
def nearby_mines (mines : List Cell) (height width : Int) (cell : Cell) : Int :=
  ((neighborhood cell).filter (fun p =>
    decide (0 ≤ p.1 ∧ p.1 < height ∧ 0 ≤ p.2 ∧ p.2 < width ∧ p ∈ mines))).length

/-- One externally visible engine operation. -/
inductive EngineOp where
  | obs : Cell → Int → EngineOp
  | mine : Cell → EngineOp
  | safe : Cell → EngineOp
deriving DecidableEq, Repr

/-- Apply one engine operation. -/
def applyOp (st : MinesweeperAI) : EngineOp → MinesweeperAI
  | .obs c n => st.add_knowledge c n
  | .mine c => st.mark_mine c
  | .safe c => st.mark_safe c

/-- Run a sequence of engine operations. -/
def runOps (st : MinesweeperAI) (ops : List EngineOp) : MinesweeperAI :=
  ops.foldl applyOp st

/-- Componentwise growth of the three monotone fact sets. -/
def Below (a b : MinesweeperAI) : Prop :=
  a.mines ⊆ b.mines ∧ a.safes ⊆ b.safes ∧ a.moves_made ⊆ b.moves_made

/-- A sentence mentions no cell already known to be a mine or safe. -/
def CleanSent (mines safes : List Cell) (s : Sentence) : Prop :=
  ∀ x ∈ s.cells, x ∉ mines ∧ x ∉ safes

/-- All stored sentences are simplified against the current knowledge. -/
def CleanState (st : MinesweeperAI) : Prop :=
  ∀ s ∈ st.knowledge, CleanSent st.mines st.safes s

/-- The cell occurs in no stored sentence. -/
def AbsentCell (x : Cell) (st : MinesweeperAI) : Prop :=
  ∀ s ∈ st.knowledge, x ∉ s.cells

/-- Every sentence of `b` is (cellwise) a shrunk version of some
sentence of `a`: marking only ever removes cells. -/
def KShrink (a b : MinesweeperAI) : Prop :=
  ∀ s' ∈ b.knowledge, ∃ s ∈ a.knowledge, ∀ x ∈ s'.cells, x ∈ s.cells

/-- Every cell added to `mines` or `safes` since `base` has also been
struck out of every stored sentence. -/
def MarkTrace (base cur : MinesweeperAI) : Prop :=
  (∀ x ∈ cur.mines, x ∈ base.mines ∨ AbsentCell x cur) ∧
  (∀ x ∈ cur.safes, x ∈ base.safes ∨ AbsentCell x cur)

/-- A sentence that `infer_new_sentence` may legitimately append to the
list `pre`: nonempty, not already structurally present, and the
subset-difference of two sentences stored in `pre`. -/
def GoodAppend (pre : List Sentence) (ns : Sentence) : Prop :=
  ns.cells ≠ [] ∧ memKB ns pre = false ∧
  ∃ a b, a ∈ pre ∧ b ∈ pre ∧ subB a.cells b.cells = true ∧
    ns.cells = listDiff b.cells a.cells ∧ ns.count = b.count - a.count

/-- The list `kb` extends `base` purely by legitimate inference appends. -/
def GrowthOk (base kb : List Sentence) : Prop :=
  ∃ extra, kb = base ++ extra ∧
    ∀ k (h : k < extra.length), GoodAppend (base ++ extra.take k) (extra.get ⟨k, h⟩)

/-- The board used by the concrete counterexample runs: mines at the
three neighbours of the corner `(0,0)`. -/
def demoBoard : List Cell := [(0, 1), (1, 0), (1, 1)]

/-- The engine state after observing `((0,0), 3)` from a fresh 8x8 engine. -/
def c1State : MinesweeperAI := (MinesweeperAI.init 8 8).add_knowledge (0, 0) 3

/-- The observation sequence of the C8 counterexample (all counts are the
true `nearby_mines` values on `demoBoard`). -/
def c8Obs : List EngineOp := [.obs (0, 0) 3, .obs (0, 2) 2, .obs (0, 4) 0]

/-- The engine state after the C8 observation sequence. -/
def c8State : MinesweeperAI := runOps (MinesweeperAI.init 8 8) c8Obs

/-- A starting state holding exactly the two premise constraints of the
subset-inference example, over cells far from the observed corner. -/
def c2Start : MinesweeperAI :=
  { MinesweeperAI.init 8 8 with
    knowledge := [⟨[(5, 0), (5, 1), (5, 2)], 2⟩, ⟨[(5, 0), (5, 1)], 1⟩] }

/-- The state after one observation processed from `c2Start`. -/
def c2After : MinesweeperAI := c2Start.add_knowledge (0, 0) 1

/-- The state after a first pair of observations; the second one infers
the (not yet extracted) degenerate sentence `{(0,2),(1,2)} = 2`. -/
def c4First : MinesweeperAI := runOps (MinesweeperAI.init 8 8) [.obs (0, 0) 1, .obs (0, 1) 3]

/-- The state after repeating the observation `((0,1), 3)` once more. -/
def c4Second : MinesweeperAI := c4First.add_knowledge (0, 1) 3

/-- A one-sentence state used by concrete witnesses. -/
def c3Demo : MinesweeperAI :=
  { MinesweeperAI.init 8 8 with knowledge := [⟨[(1, 1), (2, 2)], 2⟩] }

/-! ## Basic lemmas about the set primitives -/

theorem mem_addCell_self (l : List Cell) (c : Cell) : c ∈ addCell l c := by
  unfold addCell
  split
  · assumption
  · simp

theorem subset_addCell (l : List Cell) (c : Cell) : l ⊆ addCell l c := by
  unfold addCell
  split
  · exact fun _ h => h
  · exact List.subset_append_left _ _

theorem addCell_of_mem {l : List Cell} {c : Cell} (h : c ∈ l) : addCell l c = l := by
  unfold addCell
  simp [h]

theorem mem_addCell_iff {l : List Cell} {c x : Cell} : x ∈ addCell l c ↔ x ∈ l ∨ x = c := by
  unfold addCell
  split
  · rename_i h
    constructor
    · exact fun hx => Or.inl hx
    · rintro (hx | rfl)
      · exact hx
      · exact h
  · simp

theorem mem_removeCell {l : List Cell} {c x : Cell} :
    x ∈ removeCell l c ↔ x ∈ l ∧ x ≠ c := by
  simp [removeCell]

theorem mem_listDiff {a b : List Cell} {x : Cell} :
    x ∈ listDiff a b ↔ x ∈ a ∧ x ∉ b := by
  simp [listDiff]

theorem subB_iff {a b : List Cell} : subB a b = true ↔ ∀ x ∈ a, x ∈ b := by
  simp [subB]

theorem sentBeq_refl (s : Sentence) : sentBeq s s = true := by
  simp [sentBeq, subB_iff]

theorem memKB_append_left {x : Sentence} {kb l : List Sentence}
    (h : memKB x kb = true) : memKB x (kb ++ l) = true := by
  simp only [memKB, List.any_append, Bool.or_eq_true]
  exact Or.inl (by simpa [memKB] using h)

theorem memKB_self_append (kb : List Sentence) (s : Sentence) :
    memKB s (kb ++ [s]) = true := by
  simp [memKB, List.any_append, sentBeq_refl]

/-! ## Projection lemmas for the engine operations -/

@[simp] theorem mark_mine_moves (st : MinesweeperAI) (c : Cell) :
    (st.mark_mine c).moves_made = st.moves_made := rfl

@[simp] theorem mark_mine_safes (st : MinesweeperAI) (c : Cell) :
    (st.mark_mine c).safes = st.safes := rfl

@[simp] theorem mark_mine_mines (st : MinesweeperAI) (c : Cell) :
    (st.mark_mine c).mines = addCell st.mines c := rfl

@[simp] theorem mark_mine_knowledge (st : MinesweeperAI) (c : Cell) :
    (st.mark_mine c).knowledge = st.knowledge.map (fun s => s.mark_mine c) := rfl

@[simp] theorem mark_safe_moves (st : MinesweeperAI) (c : Cell) :
    (st.mark_safe c).moves_made = st.moves_made := rfl

@[simp] theorem mark_safe_mines (st : MinesweeperAI) (c : Cell) :
    (st.mark_safe c).mines = st.mines := rfl

@[simp] theorem mark_safe_safes (st : MinesweeperAI) (c : Cell) :
    (st.mark_safe c).safes = addCell st.safes c := rfl

@[simp] theorem mark_safe_knowledge (st : MinesweeperAI) (c : Cell) :
    (st.mark_safe c).knowledge = st.knowledge.map (fun s => s.mark_safe c) := rfl

@[simp] theorem infer_moves (st : MinesweeperAI) :
    st.infer_new_sentence.moves_made = st.moves_made := rfl

@[simp] theorem infer_mines (st : MinesweeperAI) :
    st.infer_new_sentence.mines = st.mines := rfl

@[simp] theorem infer_safes (st : MinesweeperAI) :
    st.infer_new_sentence.safes = st.safes := rfl

/-! ## C1: the mine/safe sets are not disjoint in all reachable states -/

/-- C1 (code bug): from the initial 8x8 engine, the single observation
`((0,0), 3)` — whose count is the true `nearby_mines` value on
`demoBoard`, and whose cell is not a mine of that board — produces a
state in which `(0,1)`, `(1,0)` and `(1,1)` are simultaneously members
of `mines` and of `safes`: `known_mines ∩ known_safe ≠ ∅`.  The
`len(neighbors) == count` branch of `add_knowledge` first marks every
undetermined neighbour as a mine while decrementing the local `count`,
and the `count == 0` branch then marks the very same neighbours safe. -/
theorem mines_safes_disjointness_fails :
    nearby_mines demoBoard 8 8 (0, 0) = 3 ∧
    ((0 : Int), (0 : Int)) ∉ demoBoard ∧
    ((0, 1) ∈ c1State.mines ∧ (0, 1) ∈ c1State.safes) ∧
    ((1, 0) ∈ c1State.mines ∧ (1, 0) ∈ c1State.safes) ∧
    ((1, 1) ∈ c1State.mines ∧ (1, 1) ∈ c1State.safes) := by decide

/-! ## C8: a stored sentence can violate `0 <= count <= len(cells)` -/

/-- C8 (code bug): the three observations of `c8Obs` all report the true
`nearby_mines` count on `demoBoard` for a non-mine cell, yet the final
state stores a sentence whose count exceeds the number of its cells
(the sentence `{(1,2)} = 2`).  `add_knowledge` builds each new sentence
from the raw reported count without subtracting the already-known mines
among the neighbours, and later safe-markings shrink the cell set below
the count. -/
theorem sentence_bounds_invariant_fails :
    (nearby_mines demoBoard 8 8 (0, 0) = 3 ∧
     nearby_mines demoBoard 8 8 (0, 2) = 2 ∧
     nearby_mines demoBoard 8 8 (0, 4) = 0) ∧
    (((0 : Int), (0 : Int)) ∉ demoBoard ∧ ((0 : Int), (2 : Int)) ∉ demoBoard ∧
     ((0 : Int), (4 : Int)) ∉ demoBoard) ∧
    ∃ s ∈ c8State.knowledge, ¬ (0 ≤ s.count ∧ s.count ≤ (s.cells.length : Int)) := by decide

/-! ## C9: an emptied sentence is never discarded -/

/-- C9 (counterexample): after the single observation `((0,0), 0)` from
the initial 8x8 engine, the knowledge base stores a sentence whose cell
set has become empty — fully resolved sentences are never removed from
the collection, contrary to the claim. -/
theorem empty_sentence_retained :
    ∃ s ∈ ((MinesweeperAI.init 8 8).add_knowledge (0, 0) 0).knowledge, s.cells = [] := by
  decide

/-! ## C2: subset inference derives `{C} = 1` but does not mark `C` -/

/-- C2 (counterexample): starting from a collection holding exactly
`{A,B,C} = 2` and `{A,B} = 1` (with `A = (5,0)`, `B = (5,1)`,
`C = (5,2)`), a `record_observation` call derives and stores `{C} = 1`,
yet `C` is not in `known_mines` when the call returns: the pairwise
inference pass runs after the fact-extraction pass, so the freshly
derived degenerate sentence is not extracted within the same call. -/
theorem subset_inference_no_mark_same_call :
    memKB ⟨[((5 : Int), (2 : Int))], 1⟩ c2After.knowledge = true ∧
    ((5 : Int), (2 : Int)) ∉ c2After.mines := by decide

/-! ## C4: a repeated identical observation can change the state -/

/-- C4 (counterexample): after `((0,0),1)` and a first `((0,1),3)` (both
counts are the true `nearby_mines` values on the board with mines at
`(0,2)`, `(1,1)`, `(1,2)`), repeating the very same observation
`((0,1), 3)` changes `known_mines`: the first call had appended the
inferred degenerate sentence `{(0,2),(1,2)} = 2` after its own
fact-extraction pass, and only the repeated call extracts it. -/
theorem repeated_observation_changes_state :
    nearby_mines [(0, 2), (1, 1), (1, 2)] 8 8 (0, 0) = 1 ∧
    nearby_mines [(0, 2), (1, 1), (1, 2)] 8 8 (0, 1) = 3 ∧
    ((0 : Int), (0 : Int)) ∉ ([(0, 2), (1, 1), (1, 2)] : List Cell) ∧
    ((0 : Int), (1 : Int)) ∉ ([(0, 2), (1, 1), (1, 2)] : List Cell) ∧
    ¬ (c4Second.mines = c4First.mines) := by decide

/-! ## C6: the degenerate extraction functions -/

/-- C6: `known_mines` returns the cell set exactly when
`count = len(cells)` and `none` otherwise; `known_safes` returns the
cell set exactly when `count = 0` and `none` otherwise.  (Both are pure
functions of the sentence in this embedding, so neither mutates it.) -/
theorem known_mines_known_safes_spec (s : Sentence) :
    ((s.cells.length : Int) = s.count → s.known_mines = some s.cells) ∧
    ((s.cells.length : Int) ≠ s.count → s.known_mines = none) ∧
    (s.count = 0 → s.known_safes = some s.cells) ∧
    (s.count ≠ 0 → s.known_safes = none) := by
  refine ⟨?_, ?_, ?_, ?_⟩ <;> intro h <;>
    simp [Sentence.known_mines, Sentence.known_safes, h]

/-- Witness for C6 at the concrete sentences `{(1,2)} = 1` and
`{(1,2)} = 0`. -/
theorem known_mines_known_safes_spec_witness :
    (Sentence.known_mines ⟨[((1 : Int), (2 : Int))], 1⟩ = some [((1 : Int), (2 : Int))]) ∧
    (Sentence.known_safes ⟨[((1 : Int), (2 : Int))], 1⟩ = none) ∧
    (Sentence.known_mines ⟨[((1 : Int), (2 : Int))], 0⟩ = none) ∧
    (Sentence.known_safes ⟨[((1 : Int), (2 : Int))], 0⟩ = some [((1 : Int), (2 : Int))]) :=
  ⟨(known_mines_known_safes_spec _).1 (by decide),
   (known_mines_known_safes_spec _).2.2.2 (by decide),
   (known_mines_known_safes_spec _).2.1 (by decide),
   (known_mines_known_safes_spec _).2.2.1 (by decide)⟩

/-! ## C7: `make_safe_move` -/

/-- C7: `make_safe_move` returns a cell of `safes` that is neither in
`moves_made` nor in `mines` whenever such a cell exists, and `none`
exactly when no such cell exists.  (It is a pure query in this
embedding: the state is not part of the result, so nothing is
mutated.) -/
theorem make_safe_move_spec (st : MinesweeperAI) :
    (∀ c, st.make_safe_move = some c →
      c ∈ st.safes ∧ c ∉ st.moves_made ∧ c ∉ st.mines) ∧
    ((∃ c, c ∈ st.safes ∧ c ∉ st.moves_made ∧ c ∉ st.mines) →
      ∃ c, st.make_safe_move = some c) ∧
    (st.make_safe_move = none → ∀ c ∈ st.safes, c ∈ st.moves_made ∨ c ∈ st.mines) := by
  unfold MinesweeperAI.make_safe_move
  split
  · refine ⟨?_, ?_, ?_⟩
    · intro c hc
      have hm := List.mem_of_find?_eq_some hc
      have hp := List.find?_some hc
      simp only [decide_eq_true_eq] at hp
      exact ⟨hm, hp.1, hp.2⟩
    · rintro ⟨c, hcs, hcm, hcmi⟩
      cases hfind : st.safes.find? (fun c => decide (c ∉ st.moves_made ∧ c ∉ st.mines)) with
      | none =>
        rw [List.find?_eq_none] at hfind
        exact absurd (by simpa using hfind c hcs) (by simp [hcm, hcmi])
      | some d => exact ⟨d, rfl⟩
    · intro hnone c hc
      rw [List.find?_eq_none] at hnone
      have := hnone c hc
      simp only [decide_eq_true_eq] at this
      tauto
  · rename_i h
    have hs : st.safes = [] := by
      simpa using List.length_eq_zero.mp (by omega)
    refine ⟨?_, ?_, ?_⟩
    · intro c hc
      cases hc
    · rintro ⟨c, hcs, -, -⟩
      rw [hs] at hcs
      cases hcs
    · intro _ c hc
      rw [hs] at hc
      cases hc

/-- Witness for C7: on a state whose only safe cell is `(2,3)` and whose
other sets are empty, `make_safe_move` returns a cell. -/
theorem make_safe_move_spec_witness :
    ∃ c, (MinesweeperAI.make_safe_move
      { MinesweeperAI.init 8 8 with safes := [(2, 3)] }) = some c :=
  (make_safe_move_spec _).2.1 ⟨(2, 3), by decide, by decide, by decide⟩

/-! ## C3: postcondition of `MinesweeperAI.mark_mine` -/

/-- C3: after `mark_mine c`, no stored sentence contains `c`; the list
of sentences has the same length, and position by position, a sentence
that contained `c` now holds exactly the old cells minus `c` with its
count decremented by one, while a sentence that did not contain `c` is
unchanged. -/
theorem mark_mine_spec (st : MinesweeperAI) (c : Cell) :
    (∀ s ∈ (st.mark_mine c).knowledge, c ∉ s.cells) ∧
    (st.mark_mine c).knowledge.length = st.knowledge.length ∧
    ∀ (k : Nat), k < st.knowledge.length → k < (st.mark_mine c).knowledge.length →
      (c ∈ (st.knowledge.getD k default).cells →
        ((st.mark_mine c).knowledge.getD k default).count
            = (st.knowledge.getD k default).count - 1 ∧
        ∀ x, x ∈ ((st.mark_mine c).knowledge.getD k default).cells ↔
          x ∈ (st.knowledge.getD k default).cells ∧ x ≠ c) ∧
      (c ∉ (st.knowledge.getD k default).cells →
        (st.mark_mine c).knowledge.getD k default = st.knowledge.getD k default) := by
  refine ⟨?_, by simp, ?_⟩
  · intro s hs
    simp only [mark_mine_knowledge, List.mem_map] at hs
    obtain ⟨t, -, rfl⟩ := hs
    unfold Sentence.mark_mine
    split
    · simp [mem_removeCell]
    · assumption
  · intro k hk hk'
    have hget : (st.mark_mine c).knowledge.getD k default
        = (st.knowledge.getD k default).mark_mine c := by
      rw [mark_mine_knowledge, List.getD_eq_getElem _ _ (by simpa using hk),
        List.getD_eq_getElem _ _ hk]
      simp
    constructor
    · intro hmem
      rw [hget]
      unfold Sentence.mark_mine
      rw [if_pos hmem]
      exact ⟨rfl, fun x => by simpa using mem_removeCell⟩
    · intro hmem
      rw [hget]
      unfold Sentence.mark_mine
      rw [if_neg hmem]

/-- Witness for C3 on a one-sentence state: marking `(1,1)` in
`{{(1,1),(2,2)} = 2}` leaves the sentence `{(2,2)} = 1` and no sentence
contains `(1,1)`. -/
theorem mark_mine_spec_witness :
    ((c3Demo.mark_mine (1, 1)).knowledge.getD 0 default).count = 1 ∧
    (((1 : Int), (1 : Int)) ∈ ((c3Demo.mark_mine (1, 1)).knowledge.getD 0 default).cells
      ↔ False) := by
  have h := (mark_mine_spec c3Demo (1, 1)).2.2 0 (by decide) (by decide)
  have h1 := h.1 (by decide)
  refine ⟨by rw [h1.1]; decide, ?_⟩
  rw [h1.2 (1, 1)]
  simp

/-! ## Monotonicity machinery -/

theorem Below.refl (st : MinesweeperAI) : Below st st :=
  ⟨fun _ h => h, fun _ h => h, fun _ h => h⟩

theorem Below.trans {a b c : MinesweeperAI} (h1 : Below a b) (h2 : Below b c) :
    Below a c :=
  ⟨h1.1.trans h2.1, h1.2.1.trans h2.2.1, h1.2.2.trans h2.2.2⟩

theorem below_mark_mine (st : MinesweeperAI) (c : Cell) : Below st (st.mark_mine c) :=
  ⟨subset_addCell _ _, fun _ h => h, fun _ h => h⟩

theorem below_mark_safe (st : MinesweeperAI) (c : Cell) : Below st (st.mark_safe c) :=
  ⟨fun _ h => h, subset_addCell _ _, fun _ h => h⟩

theorem below_foldl_mark_mine (l : List Cell) (st : MinesweeperAI) :
    Below st (l.foldl MinesweeperAI.mark_mine st) := by
  induction l generalizing st with
  | nil => exact Below.refl st
  | cons n t ih => exact (below_mark_mine st n).trans (ih (st.mark_mine n))

theorem below_foldl_mark_safe (l : List Cell) (st : MinesweeperAI) :
    Below st (l.foldl MinesweeperAI.mark_safe st) := by
  induction l generalizing st with
  | nil => exact Below.refl st
  | cons n t ih => exact (below_mark_safe st n).trans (ih (st.mark_safe n))

theorem mineSweep_fst (l : List Cell) (p : MinesweeperAI × Int) :
    (mineSweep p l).1 = l.foldl MinesweeperAI.mark_mine p.1 := by
  induction l generalizing p with
  | nil => rfl
  | cons n t ih => exact ih (p.1.mark_mine n, p.2 - 1)

theorem mineSweep_snd (l : List Cell) (p : MinesweeperAI × Int) :
    (mineSweep p l).2 = p.2 - l.length := by
  induction l generalizing p with
  | nil => simp [mineSweep]
  | cons n t ih =>
    have := ih (p.1.mark_mine n, p.2 - 1)
    simp only [mineSweep] at this ⊢
    rw [List.foldl_cons, this]
    simp only [List.length_cons]
    push_cast
    ring

theorem below_extractStep (st : MinesweeperAI) (s : Sentence) :
    Below st (extractStep st s) := by
  unfold extractStep
  split
  · refine Below.trans ?_ (below_foldl_mark_safe _ _)
    split
    · exact below_foldl_mark_mine _ _
    · exact Below.refl st
  · split
    · exact below_foldl_mark_mine _ _
    · exact Below.refl st

theorem below_factExtract (kb : List Sentence) (st : MinesweeperAI) :
    Below st (factExtract st kb) := by
  induction kb generalizing st with
  | nil => exact Below.refl st
  | cons s t ih => exact (below_extractStep st s).trans (ih (extractStep st s))

theorem below_infer (st : MinesweeperAI) : Below st st.infer_new_sentence :=
  Below.refl st |>.trans ⟨fun _ h => h, fun _ h => h, fun _ h => h⟩

theorem appendNew_moves (st : MinesweeperAI) (s : Sentence) :
    (appendNew st s).moves_made = st.moves_made := by
  unfold appendNew
  split <;> rfl

theorem appendNew_mines (st : MinesweeperAI) (s : Sentence) :
    (appendNew st s).mines = st.mines := by
  unfold appendNew
  split <;> rfl

theorem appendNew_safes (st : MinesweeperAI) (s : Sentence) :
    (appendNew st s).safes = st.safes := by
  unfold appendNew
  split <;> rfl

theorem below_appendNew (st : MinesweeperAI) (s : Sentence) : Below st (appendNew st s) := by
  rw [Below, appendNew_moves, appendNew_mines, appendNew_safes]
  exact Below.refl ⟨st.height, st.width, st.moves_made, st.mines, st.safes, []⟩

theorem below_branchPair (st2 : MinesweeperAI) (neighbors : List Cell) (count : Int) :
    Below st2 (branchPair st2 neighbors count).1 := by
  unfold branchPair
  split
  · rw [mineSweep_fst]
    exact below_foldl_mark_mine _ _
  · exact Below.refl st2

theorem below_safeSweep (p : MinesweeperAI × Int) (neighbors : List Cell) :
    Below p.1 (safeSweep p neighbors) := by
  unfold safeSweep
  split
  · exact below_foldl_mark_safe _ _
  · exact Below.refl p.1

theorem below_obsClose (st5 : MinesweeperAI) : Below st5 (obsClose st5) :=
  (below_factExtract _ _).trans (below_infer _)

theorem below_obsFinish (st2 : MinesweeperAI) (neighbors : List Cell) (count : Int) :
    Below st2 (obsFinish st2 neighbors count) :=
  ((below_branchPair st2 neighbors count).trans
    ((below_safeSweep _ neighbors).trans
      ((below_appendNew _ _).trans (below_obsClose _)))) 

theorem below_recordMove (st : MinesweeperAI) (cell : Cell) :
    Below st { st with moves_made := addCell st.moves_made cell } := by
  refine ⟨fun _ h => h, fun _ h => h, ?_⟩
  exact subset_addCell _ _

theorem below_add_knowledge (st : MinesweeperAI) (cell : Cell) (count : Int) :
    Below st (st.add_knowledge cell count) := by
  unfold MinesweeperAI.add_knowledge
  refine Below.trans ?_ (below_obsFinish _ _ _)
  exact Below.trans (below_recordMove st cell) (below_mark_safe _ _)

theorem below_applyOp (st : MinesweeperAI) (op : EngineOp) : Below st (applyOp st op) := by
  cases op with
  | obs c n => exact below_add_knowledge st c n
  | mine c => exact below_mark_mine st c
  | safe c => exact below_mark_safe st c

/-! ## C5: the fact sets grow monotonically -/

/-- C5: across any sequence of engine operations (`add_knowledge`,
`mark_mine`, `mark_safe`), the sets `mines`, `safes` and `moves_made`
never lose an element: each is a subset of its value after running any
further operations. -/
theorem fact_sets_monotone (st : MinesweeperAI) (ops : List EngineOp) :
    st.mines ⊆ (runOps st ops).mines ∧
    st.safes ⊆ (runOps st ops).safes ∧
    st.moves_made ⊆ (runOps st ops).moves_made := by
  induction ops generalizing st with
  | nil => exact Below.refl st
  | cons op t ih => exact (below_applyOp st op).trans (ih (applyOp st op))

/-! ## Frame lemmas for `moves_made` -/

theorem foldl_mark_mine_moves (l : List Cell) (st : MinesweeperAI) :
    (l.foldl MinesweeperAI.mark_mine st).moves_made = st.moves_made := by
  induction l generalizing st with
  | nil => rfl
  | cons n t ih => rw [List.foldl_cons, ih, mark_mine_moves]

theorem foldl_mark_safe_moves (l : List Cell) (st : MinesweeperAI) :
    (l.foldl MinesweeperAI.mark_safe st).moves_made = st.moves_made := by
  induction l generalizing st with
  | nil => rfl
  | cons n t ih => rw [List.foldl_cons, ih, mark_safe_moves]

theorem extractStep_moves (st : MinesweeperAI) (s : Sentence) :
    (extractStep st s).moves_made = st.moves_made := by
  unfold extractStep
  split
  · rw [foldl_mark_safe_moves]
    split
    · rw [foldl_mark_mine_moves]
    · rfl
  · split
    · rw [foldl_mark_mine_moves]
    · rfl

theorem factExtract_moves (kb : List Sentence) (st : MinesweeperAI) :
    (factExtract st kb).moves_made = st.moves_made := by
  induction kb generalizing st with
  | nil => rfl
  | cons s t ih =>
    show (factExtract (extractStep st s) t).moves_made = st.moves_made
    rw [ih, extractStep_moves]

theorem branchPair_moves (st2 : MinesweeperAI) (neighbors : List Cell) (count : Int) :
    (branchPair st2 neighbors count).1.moves_made = st2.moves_made := by
  unfold branchPair
  split
  · rw [mineSweep_fst, foldl_mark_mine_moves]
  · rfl

theorem safeSweep_moves (p : MinesweeperAI × Int) (neighbors : List Cell) :
    (safeSweep p neighbors).moves_made = p.1.moves_made := by
  unfold safeSweep
  split
  · rw [foldl_mark_safe_moves]
  · rfl

theorem obsFinish_moves (st2 : MinesweeperAI) (neighbors : List Cell) (count : Int) :
    (obsFinish st2 neighbors count).moves_made = st2.moves_made := by
  unfold obsFinish obsClose
  rw [infer_moves, factExtract_moves, appendNew_moves, safeSweep_moves, branchPair_moves]

theorem add_knowledge_moves (st : MinesweeperAI) (cell : Cell) (count : Int) :
    (st.add_knowledge cell count).moves_made = addCell st.moves_made cell := by
  unfold MinesweeperAI.add_knowledge
  rw [obsFinish_moves, mark_safe_moves]

theorem mem_safes_add_knowledge (st : MinesweeperAI) (cell : Cell) (count : Int) :
    cell ∈ (st.add_knowledge cell count).safes := by
  unfold MinesweeperAI.add_knowledge
  refine (below_obsFinish _ _ _).2.1 ?_
  rw [mark_safe_safes]
  exact mem_addCell_self _ _

/-! ## C4 (amended): what a repeated identical observation preserves -/

/-- C4 (amended): after a first `add_knowledge (cell, count)` call, the
cell is in `moves_made` and in `safes`, and a second call with the same
pair leaves `moves_made` unchanged; however (see the counterexample)
`known_mines`, `known_safe` and the constraint collection may still
change, because the second call's fact-extraction pass processes the
degenerate sentences the first call inferred but never extracted. -/
theorem repeated_observation_frame (st : MinesweeperAI) (cell : Cell) (count : Int) :
    ((st.add_knowledge cell count).add_knowledge cell count).moves_made
      = (st.add_knowledge cell count).moves_made ∧
    cell ∈ (st.add_knowledge cell count).moves_made ∧
    cell ∈ (st.add_knowledge cell count).safes := by
  refine ⟨?_, ?_, mem_safes_add_knowledge st cell count⟩
  · rw [add_knowledge_moves, add_knowledge_moves,
      addCell_of_mem (mem_addCell_self st.moves_made cell)]
  · rw [add_knowledge_moves]
    exact mem_addCell_self _ _

/-! ## Shape lemmas for the inference pass -/

theorem inferStep_extends (kb : List Sentence) (i j : Nat) :
    ∃ e, inferStep kb i j = kb ++ e := by
  simp only [inferStep]
  split
  · split
    · exact ⟨_, rfl⟩
    · exact ⟨[], (List.append_nil kb).symm⟩
  · split
    · split
      · exact ⟨_, rfl⟩
      · exact ⟨[], (List.append_nil kb).symm⟩
    · exact ⟨[], (List.append_nil kb).symm⟩

theorem memKB_inferStep {x : Sentence} {kb : List Sentence} (i j : Nat)
    (h : memKB x kb = true) : memKB x (inferStep kb i j) = true := by
  obtain ⟨e, he⟩ := inferStep_extends kb i j
  rw [he]
  exact memKB_append_left h

theorem foldInner_extends (i : Nat) (js : List Nat) (acc : List Sentence) :
    ∃ e, js.foldl (fun a j => inferStep a i j) acc = acc ++ e := by
  induction js generalizing acc with
  | nil => exact ⟨[], (List.append_nil acc).symm⟩
  | cons j0 t ih =>
    obtain ⟨e1, he1⟩ := inferStep_extends acc i j0
    obtain ⟨e2, he2⟩ := ih (inferStep acc i j0)
    exact ⟨e1 ++ e2, by rw [List.foldl_cons, he2, he1, List.append_assoc]⟩

theorem memKB_foldInner {x : Sentence} (i : Nat) (js : List Nat) {acc : List Sentence}
    (h : memKB x acc = true) :
    memKB x (js.foldl (fun a j => inferStep a i j) acc) = true := by
  obtain ⟨e, he⟩ := foldInner_extends i js acc
  rw [he]
  exact memKB_append_left h

theorem innerLoop_extends (kb : List Sentence) (i : Nat) :
    ∃ e, innerLoop kb i = kb ++ e :=
  foldInner_extends i _ kb

theorem memKB_innerLoop {x : Sentence} {kb : List Sentence} (i : Nat)
    (h : memKB x kb = true) : memKB x (innerLoop kb i) = true :=
  memKB_foldInner i _ h

theorem foldOuter_extends (is : List Nat) (acc : List Sentence) :
    ∃ e, is.foldl innerLoop acc = acc ++ e := by
  induction is generalizing acc with
  | nil => exact ⟨[], (List.append_nil acc).symm⟩
  | cons i0 t ih =>
    obtain ⟨e1, he1⟩ := innerLoop_extends acc i0
    obtain ⟨e2, he2⟩ := ih (innerLoop acc i0)
    exact ⟨e1 ++ e2, by rw [List.foldl_cons, he2, he1, List.append_assoc]⟩

theorem memKB_foldOuter {x : Sentence} (is : List Nat) {acc : List Sentence}
    (h : memKB x acc = true) : memKB x (is.foldl innerLoop acc) = true := by
  obtain ⟨e, he⟩ := foldOuter_extends is acc
  rw [he]
  exact memKB_append_left h

theorem getD_of_extends {base kb : List Sentence} {k : Nat}
    (h : ∃ e, kb = base ++ e) (hk : k < base.length) :
    kb.getD k default = base.getD k default := by
  obtain ⟨e, rfl⟩ := h
  rw [List.getD_eq_getElem _ _ (by simp; omega), List.getD_eq_getElem _ _ hk]
  exact List.getElem_append_left hk

theorem length_le_of_extends {base kb : List Sentence} (h : ∃ e, kb = base ++ e) :
    base.length ≤ kb.length := by
  obtain ⟨e, rfl⟩ := h
  simp

/-! ## GrowthOk: characterisation of the appends of the inference pass -/

theorem growthOk_refl (kb : List Sentence) : GrowthOk kb kb :=
  ⟨[], (List.append_nil kb).symm, fun k h => absurd h (by simp)⟩

theorem growthOk_extends {a b : List Sentence} (h : GrowthOk a b) : ∃ e, b = a ++ e :=
  ⟨h.choose, h.choose_spec.1⟩

theorem growthOk_trans {a b c : List Sentence}
    (h1 : GrowthOk a b) (h2 : GrowthOk b c) : GrowthOk a c := by
  obtain ⟨e1, rfl, he1⟩ := h1
  obtain ⟨e2, rfl, he2⟩ := h2
  refine ⟨e1 ++ e2, List.append_assoc a e1 e2, ?_⟩
  intro k hk
  rcases Nat.lt_or_ge k e1.length with hlt | hge
  · have htake : (e1 ++ e2).take k = e1.take k :=
      List.take_append_of_le_length (Nat.le_of_lt hlt)
    have hget : (e1 ++ e2).get ⟨k, hk⟩ = e1.get ⟨k, hlt⟩ := by
      rw [List.get_eq_getElem, List.get_eq_getElem]
      exact List.getElem_append_left hlt
    rw [htake, hget]
    exact he1 k hlt
  · obtain ⟨m, rfl⟩ := Nat.exists_eq_add_of_le hge
    have hm : m < e2.length := by
      have := hk
      simp only [List.length_append] at this
      omega
    have htake : (e1 ++ e2).take (e1.length + m) = e1 ++ e2.take m :=
      List.take_append m
    have hget : (e1 ++ e2).get ⟨e1.length + m, hk⟩ = e2.get ⟨m, hm⟩ := by
      rw [List.get_eq_getElem, List.get_eq_getElem]
      rw [List.getElem_append_right (Nat.le_add_right _ _)]
      simp only [Nat.add_sub_cancel_left]
    rw [htake, hget, ← List.append_assoc]
    exact he2 m hm

theorem growthOk_inferStep (kb : List Sentence) (i j : Nat)
    (hi : i < kb.length) (hj : j < kb.length) : GrowthOk kb (inferStep kb i j) := by
  have hmemi : kb.getD i default ∈ kb := by
    rw [List.getD_eq_getElem _ _ hi]
    exact List.getElem_mem hi
  have hmemj : kb.getD j default ∈ kb := by
    rw [List.getD_eq_getElem _ _ hj]
    exact List.getElem_mem hj
  simp only [inferStep]
  split
  · rename_i hsub
    split
    · rename_i hguard
      refine ⟨[_], rfl, ?_⟩
      intro k hk
      have hk0 : k = 0 := by simpa using hk
      subst hk0
      simp only [List.take_zero, List.append_nil, List.get_eq_getElem]
      exact ⟨by simpa using hguard.2, hguard.1,
        kb.getD i default, kb.getD j default, hmemi, hmemj, hsub, rfl, rfl⟩
    · exact ⟨[], (List.append_nil kb).symm, fun k h => absurd h (by simp)⟩
  · split
    · rename_i hsub
      split
      · rename_i hguard
        refine ⟨[_], rfl, ?_⟩
        intro k hk
        have hk0 : k = 0 := by simpa using hk
        subst hk0
        simp only [List.take_zero, List.append_nil, List.get_eq_getElem]
        exact ⟨by simpa using hguard.2, hguard.1,
          kb.getD j default, kb.getD i default, hmemj, hmemi, hsub, rfl, rfl⟩
      · exact ⟨[], (List.append_nil kb).symm, fun k h => absurd h (by simp)⟩
    · exact ⟨[], (List.append_nil kb).symm, fun k h => absurd h (by simp)⟩

theorem growthOk_foldInner (base : List Sentence) (i : Nat) (js : List Nat)
    (hi : i < base.length) (hjs : ∀ j ∈ js, j < base.length) :
    ∀ acc, GrowthOk base acc →
      GrowthOk base (js.foldl (fun a j => inferStep a i j) acc) := by
  induction js with
  | nil => exact fun acc h => h
  | cons j0 t ih =>
    intro acc hacc
    rw [List.foldl_cons]
    refine ih (fun j hj => hjs j (List.mem_cons_of_mem _ hj)) _ ?_
    refine growthOk_trans hacc (growthOk_inferStep acc i j0 ?_ ?_)
    · exact Nat.lt_of_lt_of_le hi (length_le_of_extends (growthOk_extends hacc))
    · exact Nat.lt_of_lt_of_le (hjs j0 (List.mem_cons_self _ _))
        (length_le_of_extends (growthOk_extends hacc))

theorem growthOk_innerLoop (kb : List Sentence) (i : Nat) (hi : i < kb.length) :
    GrowthOk kb (innerLoop kb i) := by
  unfold innerLoop
  refine growthOk_foldInner kb i _ hi ?_ kb (growthOk_refl kb)
  intro j hj
  have := List.mem_range'_1.mp hj
  omega

theorem growthOk_foldOuter (base : List Sentence) (is : List Nat)
    (his : ∀ i ∈ is, i < base.length) :
    ∀ acc, GrowthOk base acc → GrowthOk base (is.foldl innerLoop acc) := by
  induction is with
  | nil => exact fun acc h => h
  | cons i0 t ih =>
    intro acc hacc
    rw [List.foldl_cons]
    refine ih (fun i hi => his i (List.mem_cons_of_mem _ hi)) _ ?_
    have hi0 : i0 < acc.length :=
      Nat.lt_of_lt_of_le (his i0 (List.mem_cons_self _ _))
        (length_le_of_extends (growthOk_extends hacc))
    -- `innerLoop acc i0` is a fold of `inferStep`s over in-range indices
    refine growthOk_trans hacc ?_
    unfold innerLoop
    refine growthOk_foldInner acc i0 _ hi0 ?_ acc (growthOk_refl acc)
    intro j hj
    have := List.mem_range'_1.mp hj
    omega

theorem growthOk_infer (st : MinesweeperAI) :
    GrowthOk st.knowledge st.infer_new_sentence.knowledge := by
  show GrowthOk st.knowledge
    ((List.range st.knowledge.length).foldl (fun acc i => innerLoop acc i) st.knowledge)
  refine growthOk_foldOuter st.knowledge _ ?_ st.knowledge (growthOk_refl st.knowledge)
  intro i hi
  exact List.mem_range.mp hi

/-! ## C10: `infer_new_sentence` only appends derived sentences -/

/-- C10: `infer_new_sentence` leaves `mines`, `safes` and `moves_made`
unchanged, and its knowledge base is the old one followed by appended
sentences only (so every previously stored sentence survives with its
cells and count unchanged); each appended sentence is, at the moment it
is appended to the list `pre`, nonempty, not structurally present in
`pre`, and the subset-difference (with count difference) of two
sentences stored in `pre` — see `GrowthOk` and `GoodAppend`. -/
theorem infer_append_only_spec (st : MinesweeperAI) :
    st.infer_new_sentence.mines = st.mines ∧
    st.infer_new_sentence.safes = st.safes ∧
    st.infer_new_sentence.moves_made = st.moves_made ∧
    GrowthOk st.knowledge st.infer_new_sentence.knowledge :=
  ⟨rfl, rfl, rfl, growthOk_infer st⟩

/-- Witness for C10 at the concrete state `c2Start`. -/
theorem infer_append_only_spec_witness :
    GrowthOk c2Start.knowledge c2Start.infer_new_sentence.knowledge ∧
    c2Start.infer_new_sentence.mines = c2Start.mines :=
  ⟨(infer_append_only_spec c2Start).2.2.2, (infer_append_only_spec c2Start).1⟩

/-! ## C2 (amended): the subset inference is derived, not extracted -/

theorem inferStep_derives (kb : List Sentence) (i j : Nat) (A B C : Cell)
    (hCA : C ≠ A) (hCB : C ≠ B)
    (hij : (kb.getD i default = ⟨[A, B, C], 2⟩ ∧ kb.getD j default = ⟨[A, B], 1⟩)
      ∨ (kb.getD i default = ⟨[A, B], 1⟩ ∧ kb.getD j default = ⟨[A, B, C], 2⟩)) :
    memKB ⟨[C], 1⟩ (inferStep kb i j) = true := by
  have hsub : subB [A, B] [A, B, C] = true := by
    rw [subB_iff]
    intro x hx
    simp only [List.mem_cons, List.not_mem_nil, or_false] at hx ⊢
    tauto
  have hnsub : subB [A, B, C] [A, B] = false := by
    apply Bool.eq_false_iff.mpr
    intro h
    rw [subB_iff] at h
    have := h C (by simp)
    simp only [List.mem_cons, List.not_mem_nil, or_false] at this
    tauto
  have hdiff : listDiff [A, B, C] [A, B] = [C] := by
    simp [listDiff, List.filter, hCA, hCB]
  have hcount : (2 : Int) - 1 = 1 := by norm_num
  simp only [inferStep]
  rcases hij with ⟨hi, hj⟩ | ⟨hi, hj⟩
  · rw [hi, hj]
    simp only [hnsub, hsub, hdiff, hcount, Bool.false_eq_true, if_false, if_true]
    split
    · exact memKB_self_append kb ⟨[C], 1⟩
    · rename_i hguard
      rcases Decidable.not_and_iff_or_not.mp hguard with h | h
      · simpa using h
      · simp at h
  · rw [hi, hj]
    simp only [hsub, hdiff, hcount, if_true]
    split
    · exact memKB_self_append kb ⟨[C], 1⟩
    · rename_i hguard
      rcases Decidable.not_and_iff_or_not.mp hguard with h | h
      · simpa using h
      · simp at h

theorem foldInner_derives (base : List Sentence) (i q : Nat) (A B C : Cell)
    (hCA : C ≠ A) (hCB : C ≠ B) (hi : i < base.length) (hq : q < base.length)
    (hent : (base.getD i default = ⟨[A, B, C], 2⟩ ∧ base.getD q default = ⟨[A, B], 1⟩)
      ∨ (base.getD i default = ⟨[A, B], 1⟩ ∧ base.getD q default = ⟨[A, B, C], 2⟩)) :
    ∀ (js : List Nat) (acc : List Sentence), (∃ e, acc = base ++ e) → q ∈ js →
      memKB ⟨[C], 1⟩ (js.foldl (fun a j => inferStep a i j) acc) = true := by
  intro js
  induction js with
  | nil => intro acc _ h; cases h
  | cons j0 t ih =>
    intro acc hacc hqmem
    rw [List.foldl_cons]
    rcases List.mem_cons.mp hqmem with rfl | hqt
    · refine memKB_foldInner i t ?_
      refine inferStep_derives acc i q A B C hCA hCB ?_
      rw [getD_of_extends hacc hi, getD_of_extends hacc hq]
      exact hent
    · refine ih (inferStep acc i j0) ?_ hqt
      obtain ⟨e1, rfl⟩ := hacc
      obtain ⟨e2, he2⟩ := inferStep_extends (base ++ e1) i j0
      exact ⟨e1 ++ e2, by rw [he2, List.append_assoc]⟩

theorem foldOuter_derives (base : List Sentence) (p q : Nat) (A B C : Cell)
    (hCA : C ≠ A) (hCB : C ≠ B) (hpq : p < q) (hq : q < base.length)
    (hent : (base.getD p default = ⟨[A, B, C], 2⟩ ∧ base.getD q default = ⟨[A, B], 1⟩)
      ∨ (base.getD p default = ⟨[A, B], 1⟩ ∧ base.getD q default = ⟨[A, B, C], 2⟩)) :
    ∀ (is : List Nat) (acc : List Sentence), (∃ e, acc = base ++ e) → p ∈ is →
      memKB ⟨[C], 1⟩ (is.foldl innerLoop acc) = true := by
  intro is
  induction is with
  | nil => intro acc _ h; cases h
  | cons i0 t ih =>
    intro acc hacc hpmem
    rw [List.foldl_cons]
    rcases List.mem_cons.mp hpmem with rfl | hpt
    · refine memKB_foldOuter t ?_
      unfold innerLoop
      have hlen : base.length ≤ acc.length := length_le_of_extends hacc
      refine foldInner_derives base p q A B C hCA hCB (Nat.lt_trans hpq hq) hq hent
        _ acc hacc ?_
      rw [List.mem_range'_1]
      omega
    · refine ih (innerLoop acc i0) ?_ hpt
      obtain ⟨e1, rfl⟩ := hacc
      obtain ⟨e2, he2⟩ := innerLoop_extends (base ++ e1) i0
      exact ⟨e1 ++ e2, by rw [he2, List.append_assoc]⟩

/-- C2 (amended): if the knowledge base holds the sentences
`{A,B,C} = 2` and `{A,B} = 1` (for distinct cells), then after the
pairwise inference pass the derived sentence `{C} = 1` is (structurally)
in the collection; the pass itself marks nothing, so `C` enters
`known_mines` only when a later `add_knowledge` call's fact-extraction
step processes the stored degenerate sentence — not by the end of the
call that derived it (see the counterexample). -/
theorem subset_inference_derives (st : MinesweeperAI) (A B C : Cell)
    (hCA : C ≠ A) (hCB : C ≠ B)
    (h1 : (⟨[A, B, C], 2⟩ : Sentence) ∈ st.knowledge)
    (h2 : (⟨[A, B], 1⟩ : Sentence) ∈ st.knowledge) :
    memKB ⟨[C], 1⟩ st.infer_new_sentence.knowledge = true ∧
    st.infer_new_sentence.mines = st.mines := by
  refine ⟨?_, rfl⟩
  obtain ⟨n1, hn1, he1⟩ := List.mem_iff_getElem.mp h1
  obtain ⟨n2, hn2, he2⟩ := List.mem_iff_getElem.mp h2
  have hne : n1 ≠ n2 := by
    intro h
    subst h
    rw [he1] at he2
    exact absurd (congrArg Sentence.count he2) (by norm_num)
  have hd1 : st.knowledge.getD n1 default = ⟨[A, B, C], 2⟩ := by
    rw [List.getD_eq_getElem _ _ hn1, he1]
  have hd2 : st.knowledge.getD n2 default = ⟨[A, B], 1⟩ := by
    rw [List.getD_eq_getElem _ _ hn2, he2]
  show memKB ⟨[C], 1⟩
    ((List.range st.knowledge.length).foldl (fun acc i => innerLoop acc i)
      st.knowledge) = true
  rcases Nat.lt_or_ge n1 n2 with hlt | hge
  · exact foldOuter_derives st.knowledge n1 n2 A B C hCA hCB hlt hn2
      (Or.inl ⟨hd1, hd2⟩) _ st.knowledge ⟨[], (List.append_nil _).symm⟩
      (List.mem_range.mpr (Nat.lt_trans hlt hn2))
  · have hlt : n2 < n1 := Nat.lt_of_le_of_ne hge (Ne.symm hne)
    exact foldOuter_derives st.knowledge n2 n1 A B C hCA hCB hlt hn1
      (Or.inr ⟨hd2, hd1⟩) _ st.knowledge ⟨[], (List.append_nil _).symm⟩
      (List.mem_range.mpr (Nat.lt_trans hlt hn1))

/-- Witness for C2 (amended) at `c2Start` with `A = (5,0)`, `B = (5,1)`,
`C = (5,2)`. -/
theorem subset_inference_derives_witness :
    memKB ⟨[((5 : Int), (2 : Int))], 1⟩ c2Start.infer_new_sentence.knowledge = true ∧
    c2Start.infer_new_sentence.mines = c2Start.mines :=
  subset_inference_derives c2Start (5, 0) (5, 1) (5, 2)
    (by decide) (by decide) (by decide) (by decide)

/-! ## Cell membership in marked sentences -/

theorem mem_cells_mark_mine {s : Sentence} {c x : Cell} :
    x ∈ (s.mark_mine c).cells ↔ x ∈ s.cells ∧ x ≠ c := by
  unfold Sentence.mark_mine
  split
  · rename_i h
    exact mem_removeCell
  · rename_i h
    constructor
    · intro hx
      exact ⟨hx, fun e => h (e ▸ hx)⟩
    · exact fun hx => hx.1

theorem mem_cells_mark_safe {s : Sentence} {c x : Cell} :
    x ∈ (s.mark_safe c).cells ↔ x ∈ s.cells ∧ x ≠ c := by
  unfold Sentence.mark_safe
  split
  · rename_i h
    exact mem_removeCell
  · rename_i h
    constructor
    · intro hx
      exact ⟨hx, fun e => h (e ▸ hx)⟩
    · exact fun hx => hx.1

/-! ## Absence of a cell from all sentences -/

theorem absentCell_mark_mine_self (st : MinesweeperAI) (c : Cell) :
    AbsentCell c (st.mark_mine c) := by
  intro s hs
  rw [mark_mine_knowledge] at hs
  obtain ⟨t, -, rfl⟩ := List.mem_map.mp hs
  rw [mem_cells_mark_mine]
  simp

theorem absentCell_mark_safe_self (st : MinesweeperAI) (c : Cell) :
    AbsentCell c (st.mark_safe c) := by
  intro s hs
  rw [mark_safe_knowledge] at hs
  obtain ⟨t, -, rfl⟩ := List.mem_map.mp hs
  rw [mem_cells_mark_safe]
  simp

theorem absentCell_mark_mine {x : Cell} {st : MinesweeperAI}
    (h : AbsentCell x st) (c : Cell) : AbsentCell x (st.mark_mine c) := by
  intro s hs
  rw [mark_mine_knowledge] at hs
  obtain ⟨t, ht, rfl⟩ := List.mem_map.mp hs
  rw [mem_cells_mark_mine]
  exact fun hx => h t ht hx.1

theorem absentCell_mark_safe {x : Cell} {st : MinesweeperAI}
    (h : AbsentCell x st) (c : Cell) : AbsentCell x (st.mark_safe c) := by
  intro s hs
  rw [mark_safe_knowledge] at hs
  obtain ⟨t, ht, rfl⟩ := List.mem_map.mp hs
  rw [mem_cells_mark_safe]
  exact fun hx => h t ht hx.1

theorem absentCell_foldl_mine {x : Cell} (l : List Cell) :
    ∀ st : MinesweeperAI, AbsentCell x st →
      AbsentCell x (l.foldl MinesweeperAI.mark_mine st) := by
  induction l with
  | nil => exact fun _ h => h
  | cons a t ih => exact fun st h => ih _ (absentCell_mark_mine h a)

theorem absentCell_foldl_safe {x : Cell} (l : List Cell) :
    ∀ st : MinesweeperAI, AbsentCell x st →
      AbsentCell x (l.foldl MinesweeperAI.mark_safe st) := by
  induction l with
  | nil => exact fun _ h => h
  | cons a t ih => exact fun st h => ih _ (absentCell_mark_safe h a)

theorem absentCell_foldl_mine_of_mem {x : Cell} (l : List Cell) (hx : x ∈ l) :
    ∀ st : MinesweeperAI, AbsentCell x (l.foldl MinesweeperAI.mark_mine st) := by
  induction l with
  | nil => cases hx
  | cons a t ih =>
    intro st
    rcases List.mem_cons.mp hx with rfl | hxt
    · exact absentCell_foldl_mine t _ (absentCell_mark_mine_self st x)
    · exact ih hxt (st.mark_mine a)

theorem absentCell_foldl_safe_of_mem {x : Cell} (l : List Cell) (hx : x ∈ l) :
    ∀ st : MinesweeperAI, AbsentCell x (l.foldl MinesweeperAI.mark_safe st) := by
  induction l with
  | nil => cases hx
  | cons a t ih =>
    intro st
    rcases List.mem_cons.mp hx with rfl | hxt
    · exact absentCell_foldl_safe t _ (absentCell_mark_safe_self st x)
    · exact ih hxt (st.mark_safe a)

theorem absentCell_extractStep {x : Cell} {st : MinesweeperAI} (s : Sentence)
    (h : AbsentCell x st) : AbsentCell x (extractStep st s) := by
  unfold extractStep
  split
  · refine absentCell_foldl_safe _ _ ?_
    split
    · exact absentCell_foldl_mine _ _ h
    · exact h
  · split
    · exact absentCell_foldl_mine _ _ h
    · exact h

theorem absentCell_factExtract {x : Cell} (kb : List Sentence) :
    ∀ st : MinesweeperAI, AbsentCell x st → AbsentCell x (factExtract st kb) := by
  induction kb with
  | nil => exact fun _ h => h
  | cons s t ih => exact fun st h => ih _ (absentCell_extractStep s h)

theorem absentCell_factExtract_of_zero {x : Cell} {s : Sentence} (kb : List Sentence)
    (hmem : s ∈ kb) (hz : s.count = 0) (hx : x ∈ s.cells) :
    ∀ st : MinesweeperAI, AbsentCell x (factExtract st kb) := by
  induction kb with
  | nil => cases hmem
  | cons s0 t ih =>
    intro st
    rcases List.mem_cons.mp hmem with rfl | hmt
    · show AbsentCell x (factExtract (extractStep st s) t)
      refine absentCell_factExtract t _ ?_
      unfold extractStep
      rw [if_pos hz]
      exact absentCell_foldl_safe_of_mem _ hx _
    · exact ih hmt (extractStep st s0)

/-! ## MarkTrace: newly known cells are struck out everywhere -/

theorem markTrace_refl (st : MinesweeperAI) : MarkTrace st st :=
  ⟨fun _ h => Or.inl h, fun _ h => Or.inl h⟩

theorem markTrace_mark_mine {b cur : MinesweeperAI} (h : MarkTrace b cur) (c : Cell) :
    MarkTrace b (cur.mark_mine c) := by
  constructor
  · intro x hx
    rw [mark_mine_mines, mem_addCell_iff] at hx
    rcases hx with hx | rfl
    · rcases h.1 x hx with h1 | h1
      · exact Or.inl h1
      · exact Or.inr (absentCell_mark_mine h1 c)
    · exact Or.inr (absentCell_mark_mine_self cur x)
  · intro x hx
    rw [mark_mine_safes] at hx
    rcases h.2 x hx with h1 | h1
    · exact Or.inl h1
    · exact Or.inr (absentCell_mark_mine h1 c)

theorem markTrace_mark_safe {b cur : MinesweeperAI} (h : MarkTrace b cur) (c : Cell) :
    MarkTrace b (cur.mark_safe c) := by
  constructor
  · intro x hx
    rw [mark_safe_mines] at hx
    rcases h.1 x hx with h1 | h1
    · exact Or.inl h1
    · exact Or.inr (absentCell_mark_safe h1 c)
  · intro x hx
    rw [mark_safe_safes, mem_addCell_iff] at hx
    rcases hx with hx | rfl
    · rcases h.2 x hx with h1 | h1
      · exact Or.inl h1
      · exact Or.inr (absentCell_mark_safe h1 c)
    · exact Or.inr (absentCell_mark_safe_self cur x)

theorem markTrace_foldl_mine {b : MinesweeperAI} (l : List Cell) :
    ∀ cur : MinesweeperAI, MarkTrace b cur →
      MarkTrace b (l.foldl MinesweeperAI.mark_mine cur) := by
  induction l with
  | nil => exact fun _ h => h
  | cons a t ih => exact fun cur h => ih _ (markTrace_mark_mine h a)

theorem markTrace_foldl_safe {b : MinesweeperAI} (l : List Cell) :
    ∀ cur : MinesweeperAI, MarkTrace b cur →
      MarkTrace b (l.foldl MinesweeperAI.mark_safe cur) := by
  induction l with
  | nil => exact fun _ h => h
  | cons a t ih => exact fun cur h => ih _ (markTrace_mark_safe h a)

theorem markTrace_extractStep {b cur : MinesweeperAI} (s : Sentence)
    (h : MarkTrace b cur) : MarkTrace b (extractStep cur s) := by
  unfold extractStep
  split
  · refine markTrace_foldl_safe _ _ ?_
    split
    · exact markTrace_foldl_mine _ _ h
    · exact h
  · split
    · exact markTrace_foldl_mine _ _ h
    · exact h

theorem markTrace_factExtract {b : MinesweeperAI} (kb : List Sentence) :
    ∀ cur : MinesweeperAI, MarkTrace b cur → MarkTrace b (factExtract cur kb) := by
  induction kb with
  | nil => exact fun _ h => h
  | cons s t ih => exact fun cur h => ih _ (markTrace_extractStep s h)

/-! ## KShrink: stored sentences only ever lose cells -/

theorem kshrink_refl (st : MinesweeperAI) : KShrink st st :=
  fun s hs => ⟨s, hs, fun _ hx => hx⟩

theorem kshrink_trans {a b c : MinesweeperAI} (h1 : KShrink a b) (h2 : KShrink b c) :
    KShrink a c := by
  intro s' hs'
  obtain ⟨t, ht, hsub1⟩ := h2 s' hs'
  obtain ⟨u, hu, hsub2⟩ := h1 t ht
  exact ⟨u, hu, fun x hx => hsub2 x (hsub1 x hx)⟩

theorem kshrink_mark_mine (st : MinesweeperAI) (c : Cell) :
    KShrink st (st.mark_mine c) := by
  intro s' hs'
  rw [mark_mine_knowledge] at hs'
  obtain ⟨t, ht, rfl⟩ := List.mem_map.mp hs'
  exact ⟨t, ht, fun x hx => (mem_cells_mark_mine.mp hx).1⟩

theorem kshrink_mark_safe (st : MinesweeperAI) (c : Cell) :
    KShrink st (st.mark_safe c) := by
  intro s' hs'
  rw [mark_safe_knowledge] at hs'
  obtain ⟨t, ht, rfl⟩ := List.mem_map.mp hs'
  exact ⟨t, ht, fun x hx => (mem_cells_mark_safe.mp hx).1⟩

theorem kshrink_foldl_mine (l : List Cell) :
    ∀ st : MinesweeperAI, KShrink st (l.foldl MinesweeperAI.mark_mine st) := by
  induction l with
  | nil => exact kshrink_refl
  | cons a t ih =>
    exact fun st => kshrink_trans (kshrink_mark_mine st a) (ih (st.mark_mine a))

theorem kshrink_foldl_safe (l : List Cell) :
    ∀ st : MinesweeperAI, KShrink st (l.foldl MinesweeperAI.mark_safe st) := by
  induction l with
  | nil => exact kshrink_refl
  | cons a t ih =>
    exact fun st => kshrink_trans (kshrink_mark_safe st a) (ih (st.mark_safe a))

theorem kshrink_extractStep (st : MinesweeperAI) (s : Sentence) :
    KShrink st (extractStep st s) := by
  unfold extractStep
  split
  · refine kshrink_trans ?_ (kshrink_foldl_safe _ _)
    split
    · exact kshrink_foldl_mine _ _
    · exact kshrink_refl st
  · split
    · exact kshrink_foldl_mine _ _
    · exact kshrink_refl st

theorem kshrink_factExtract (kb : List Sentence) :
    ∀ st : MinesweeperAI, KShrink st (factExtract st kb) := by
  induction kb with
  | nil => exact kshrink_refl
  | cons s t ih =>
    exact fun st => kshrink_trans (kshrink_extractStep st s) (ih (extractStep st s))

/-! ## Preservation of cleanliness by the marking operations -/

theorem cleanState_mark_mine {st : MinesweeperAI} (h : CleanState st) (c : Cell) :
    CleanState (st.mark_mine c) := by
  intro s' hs' x hx
  rw [mark_mine_knowledge] at hs'
  obtain ⟨t, ht, rfl⟩ := List.mem_map.mp hs'
  obtain ⟨hxt, hxc⟩ := mem_cells_mark_mine.mp hx
  obtain ⟨hm, hs⟩ := h t ht x hxt
  refine ⟨?_, hs⟩
  rw [mark_mine_mines, mem_addCell_iff]
  rintro (h1 | rfl)
  · exact hm h1
  · exact hxc rfl

theorem cleanState_mark_safe {st : MinesweeperAI} (h : CleanState st) (c : Cell) :
    CleanState (st.mark_safe c) := by
  intro s' hs' x hx
  rw [mark_safe_knowledge] at hs'
  obtain ⟨t, ht, rfl⟩ := List.mem_map.mp hs'
  obtain ⟨hxt, hxc⟩ := mem_cells_mark_safe.mp hx
  obtain ⟨hm, hs⟩ := h t ht x hxt
  refine ⟨hm, ?_⟩
  rw [mark_safe_safes, mem_addCell_iff]
  rintro (h1 | rfl)
  · exact hs h1
  · exact hxc rfl

theorem cleanState_foldl_mine (l : List Cell) :
    ∀ st : MinesweeperAI, CleanState st →
      CleanState (l.foldl MinesweeperAI.mark_mine st) := by
  induction l with
  | nil => exact fun _ h => h
  | cons a t ih => exact fun st h => ih _ (cleanState_mark_mine h a)

theorem cleanState_foldl_safe (l : List Cell) :
    ∀ st : MinesweeperAI, CleanState st →
      CleanState (l.foldl MinesweeperAI.mark_safe st) := by
  induction l with
  | nil => exact fun _ h => h
  | cons a t ih => exact fun st h => ih _ (cleanState_mark_safe h a)

/-! ## Cleanliness through the inference pass -/

theorem default_sentence_cells : (default : Sentence).cells = [] := rfl

theorem getD_mem_or_default (kb : List Sentence) (k : Nat) :
    kb.getD k default ∈ kb ∨ kb.getD k default = default := by
  rcases Nat.lt_or_ge k kb.length with h | h
  · left
    rw [List.getD_eq_getElem _ _ h]
    exact List.getElem_mem h
  · right
    exact List.getD_eq_default _ _ h

theorem cleanSent_diff (m s : List Cell) (kb : List Sentence) (jj ii : Nat) (cnt : Int)
    (h : ∀ t ∈ kb, CleanSent m s t) :
    CleanSent m s ⟨listDiff (kb.getD jj default).cells (kb.getD ii default).cells, cnt⟩ := by
  intro x hx
  have hx1 : x ∈ (kb.getD jj default).cells := (mem_listDiff.mp hx).1
  rcases getD_mem_or_default kb jj with hm | hd
  · exact h _ hm x hx1
  · rw [hd, default_sentence_cells] at hx1
    cases hx1

theorem cleanKBL_inferStep (m s : List Cell) (kb : List Sentence) (i j : Nat)
    (h : ∀ t ∈ kb, CleanSent m s t) : ∀ t ∈ inferStep kb i j, CleanSent m s t := by
  simp only [inferStep]
  split
  · split
    · intro t ht
      rcases List.mem_append.mp ht with h1 | h1
      · exact h t h1
      · rw [List.mem_singleton.mp h1]
        exact cleanSent_diff m s kb j i _ h
    · exact h
  · split
    · split
      · intro t ht
        rcases List.mem_append.mp ht with h1 | h1
        · exact h t h1
        · rw [List.mem_singleton.mp h1]
          exact cleanSent_diff m s kb i j _ h
      · exact h
    · exact h

theorem cleanKBL_foldInner (m s : List Cell) (i : Nat) (js : List Nat) :
    ∀ acc, (∀ t ∈ acc, CleanSent m s t) →
      ∀ t ∈ js.foldl (fun a j => inferStep a i j) acc, CleanSent m s t := by
  induction js with
  | nil => exact fun _ h => h
  | cons j0 t2 ih => exact fun acc h => ih _ (cleanKBL_inferStep m s acc i j0 h)

theorem cleanKBL_innerLoop (m s : List Cell) (kb : List Sentence) (i : Nat)
    (h : ∀ t ∈ kb, CleanSent m s t) : ∀ t ∈ innerLoop kb i, CleanSent m s t := by
  unfold innerLoop
  exact cleanKBL_foldInner m s i _ kb h

theorem cleanKBL_foldOuter (m s : List Cell) (is : List Nat) :
    ∀ acc, (∀ t ∈ acc, CleanSent m s t) →
      ∀ t ∈ is.foldl innerLoop acc, CleanSent m s t := by
  induction is with
  | nil => exact fun _ h => h
  | cons i0 t2 ih => exact fun acc h => ih _ (cleanKBL_innerLoop m s acc i0 h)

theorem cleanState_infer {st : MinesweeperAI} (h : CleanState st) :
    CleanState st.infer_new_sentence := by
  intro s' hs'
  refine cleanKBL_foldOuter st.mines st.safes _ st.knowledge ?_ s' hs'
  exact fun t ht => h t ht

/-! ## Cleanliness through one full observation -/

theorem cleanState_branchPair (st2 : MinesweeperAI) (neighbors : List Cell) (count : Int)
    (h : CleanState st2) : CleanState (branchPair st2 neighbors count).1 := by
  unfold branchPair
  split
  · rw [mineSweep_fst]
    exact cleanState_foldl_mine _ _ h
  · exact h

theorem cleanState_safeSweep (p : MinesweeperAI × Int) (neighbors : List Cell)
    (h : CleanState p.1) : CleanState (safeSweep p neighbors) := by
  unfold safeSweep
  split
  · exact cleanState_foldl_safe _ _ h
  · exact h

theorem branchPair_of_snd_ne (st2 : MinesweeperAI) (neighbors : List Cell) (count : Int)
    (h : (branchPair st2 neighbors count).2 ≠ 0) :
    branchPair st2 neighbors count = (st2, count) := by
  by_cases hc : (neighbors.length : Int) = count
  · exfalso
    apply h
    unfold branchPair
    rw [if_pos hc, mineSweep_snd]
    omega
  · unfold branchPair
    rw [if_neg hc]

theorem q_appendNew (st4 : MinesweeperAI) (ns : Sentence)
    (h4 : CleanState st4) (hns : CleanSent st4.mines st4.safes ns ∨ ns.count = 0) :
    ∀ t ∈ (appendNew st4 ns).knowledge,
      CleanSent (appendNew st4 ns).mines (appendNew st4 ns).safes t ∨ t.count = 0 := by
  rw [appendNew_mines, appendNew_safes]
  unfold appendNew
  split
  · intro t ht
    rcases List.mem_append.mp ht with h1 | h1
    · exact Or.imp_left (fun hc => hc) (Or.inl (h4 t h1))
    · rw [List.mem_singleton.mp h1]
      exact hns
  · exact fun t ht => Or.inl (h4 t ht)

theorem clean_close (st5 : MinesweeperAI)
    (hq : ∀ t ∈ st5.knowledge, CleanSent st5.mines st5.safes t ∨ t.count = 0) :
    CleanState (obsClose st5) := by
  unfold obsClose
  refine cleanState_infer ?_
  intro s' hs' x hx
  obtain ⟨s, hsmem, hsub⟩ := kshrink_factExtract st5.knowledge st5 s' hs'
  have hxs := hsub x hx
  rcases hq s hsmem with hcl | hzero
  · obtain ⟨hm, hsafe⟩ := hcl x hxs
    have htrace := markTrace_factExtract st5.knowledge st5 (markTrace_refl st5)
    constructor
    · intro hmem
      rcases htrace.1 x hmem with h1 | h1
      · exact hm h1
      · exact h1 s' hs' hx
    · intro hmem
      rcases htrace.2 x hmem with h1 | h1
      · exact hsafe h1
      · exact h1 s' hs' hx
  · exact absurd hx (absentCell_factExtract_of_zero st5.knowledge hsmem hzero hxs st5 s' hs')

theorem clean_obsFinish (st2 : MinesweeperAI) (neighbors : List Cell) (count : Int)
    (hclean : CleanState st2)
    (hnb : ∀ n ∈ neighbors, n ∉ st2.mines ∧ n ∉ st2.safes) :
    CleanState (obsFinish st2 neighbors count) := by
  unfold obsFinish
  apply clean_close
  apply q_appendNew
  · exact cleanState_safeSweep _ _ (cleanState_branchPair _ _ _ hclean)
  · by_cases hz : (branchPair st2 neighbors count).2 = 0
    · exact Or.inr hz
    · left
      have hbp := branchPair_of_snd_ne st2 neighbors count hz
      have hss : safeSweep (branchPair st2 neighbors count) neighbors = st2 := by
        unfold safeSweep
        rw [if_neg hz, hbp]
      intro x hx
      rw [hss]
      exact hnb x hx

theorem cleanState_add_knowledge {st : MinesweeperAI} (h : CleanState st)
    (cell : Cell) (count : Int) : CleanState (st.add_knowledge cell count) := by
  unfold MinesweeperAI.add_knowledge
  have h1 : CleanState { st with moves_made := addCell st.moves_made cell } := h
  have h2 := cleanState_mark_safe h1 cell
  refine clean_obsFinish _ _ _ h2 ?_
  intro n hn
  unfold computeNeighbors at hn
  rw [List.mem_filter] at hn
  have hn2 := hn.2
  simp only [decide_eq_true_eq] at hn2
  exact ⟨hn2.2.2.2.2.1, hn2.2.2.2.2.2⟩

theorem cleanState_applyOp {st : MinesweeperAI} (h : CleanState st) (op : EngineOp) :
    CleanState (applyOp st op) := by
  cases op with
  | obs c n => exact cleanState_add_knowledge h c n
  | mine c => exact cleanState_mark_mine h c
  | safe c => exact cleanState_mark_safe h c

theorem cleanState_runOps (ops : List EngineOp) :
    ∀ st : MinesweeperAI, CleanState st → CleanState (runOps st ops) := by
  induction ops with
  | nil => exact fun _ h => h
  | cons op t ih => exact fun st h => ih _ (cleanState_applyOp h op)

/-! ## C9 (amended): reachable states are simplified against knowledge -/

/-- C9 (amended): in every state reachable from the initial engine, no
stored sentence contains a cell of `known_mines` or `known_safe`; the
second half of the original claim is false (see the counterexample):
a sentence whose cells have all been struck out is never removed from
the collection — only the appending of new empty sentences is avoided. -/
theorem constraints_clean_reachable (height width : Int) (ops : List EngineOp) :
    CleanState (runOps (MinesweeperAI.init height width) ops) := by
  refine cleanState_runOps ops _ ?_
  intro s hs
  cases hs

/-- Witness for C9 (amended): after observing `((0,0), 1)`, the stored
sentence's cell `(0,1)` is in neither `mines` nor `safes`. -/
theorem constraints_clean_reachable_witness :
    ((0 : Int), (1 : Int)) ∉ (runOps (MinesweeperAI.init 8 8) [.obs (0, 0) 1]).mines ∧
    ((0 : Int), (1 : Int)) ∉ (runOps (MinesweeperAI.init 8 8) [.obs (0, 0) 1]).safes :=
  constraints_clean_reachable 8 8 [.obs (0, 0) 1]
    ⟨[(0, 1), (1, 0), (1, 1)], 1⟩ (by decide) (0, 1) (by decide)
